import Mathlib

/-!
Verification development for the text-substitution core of
`lib/spack/llnl/util/filesystem.py`: the line-oriented substitution engine
`filter_file` and the sed-delimiter rewriter `change_sed_delimiter`.

The Python `re` module calls are embedded as a small backtracking regex
matcher over `List Char` with Python semantics: leftmost match, greedy
quantifiers with alternation priority, `^`/`$` anchoring where `$` also
matches just before a trailing newline, and `.` matching any character
except newline.  Delimiters are modelled as literal characters, which is
faithful for every delimiter that is not a regex metacharacter (the source
splices the delimiter textually into a pattern string).
-/

namespace SpackFs

/-- Regular expressions, covering exactly the constructs used by the
source's patterns: character classes (positive and negated), sequencing,
alternation (first alternative preferred), greedy star, numbered capture
groups, and the `^`/`$` anchors.  `(?:...)` grouping is plain nesting. -/
inductive RE where
  | eps
  | cls (pos : Bool) (cs : List Char)
  | seq (a b : RE)
  | alt (a b : RE)
  | star (a : RE)
  | group (i : Nat) (a : RE)
  | bol
  | eol
deriving Repr

/-- A single literal character, `c`. -/
def RE.chr (c : Char) : RE := .cls true [c]

/-- `.` — any character except a newline. -/
def RE.anyc : RE := .cls false ['\n']

/-- Greedy `?`. -/
def RE.opt (a : RE) : RE := .alt a .eps

/-- Concatenation of a list of regexes. -/
def RE.cat (rs : List RE) : RE := rs.foldr .seq .eps

/-- Capture environment: group index paired with captured text; the most
recent binding for an index wins (Python keeps the last capture). -/
abbrev Caps := List (Nat × List Char)

/-- Record a capture. -/
def setCap (caps : Caps) (i : Nat) (v : List Char) : Caps := (i, v) :: caps

/-- A size measure on regexes, used to compute a sufficient recursion
budget for the matcher. -/
def reSize : RE → Nat
  | .eps => 1
  | .bol => 1
  | .eol => 1
  | .cls _ _ => 1
  | .seq a b => 1 + reSize a + reSize b
  | .alt a b => 1 + reSize a + reSize b
  | .star a => 1 + reSize a
  | .group _ a => 1 + reSize a

/-- All ways `re` can match a prefix of `rem` (the input suffix starting at
absolute position `p`), in backtracking priority order: the head of the
list is the match Python's engine commits to.  Each result is
`(consumed text, remaining input, captures)`.  `fuel` is a recursion
budget, decremented at every recursive call so that the definition is
structural (and hence reduces in the kernel); with fuel
`reSize re * (rem.length + 1)` the budget never runs out, because a star
iteration that consumes nothing is not repeated. -/
def mats (fuel : Nat) (re : RE) (p : Nat) (rem : List Char) (caps : Caps) :
    List (List Char × List Char × Caps) :=
  match re with
  | .eps => [([], rem, caps)]
  | .bol => if p = 0 then [([], rem, caps)] else []
  | .eol => if rem = [] ∨ rem = ['\n'] then [([], rem, caps)] else []
  | .cls b cs =>
    match rem with
    | [] => []
    | c :: rest => if cs.contains c = b then [([c], rest, caps)] else []
  | .seq a b =>
    match fuel with
    | 0 => []
    | fuel' + 1 =>
      (mats fuel' a p rem caps).flatMap (fun r =>
        (mats fuel' b (p + r.1.length) r.2.1 r.2.2).map
          (fun s => (r.1 ++ s.1, s.2.1, s.2.2)))
  | .alt a b =>
    match fuel with
    | 0 => []
    | fuel' + 1 => mats fuel' a p rem caps ++ mats fuel' b p rem caps
  | .group i a =>
    match fuel with
    | 0 => []
    | fuel' + 1 =>
      (mats fuel' a p rem caps).map (fun r => (r.1, r.2.1, setCap r.2.2 i r.1))
  | .star a =>
    match fuel with
    | 0 => []
    | fuel' + 1 =>
      (((mats fuel' a p rem caps).filter (fun r => r.1 ≠ [])).flatMap (fun r =>
        (mats fuel' (.star a) (p + r.1.length) r.2.1 r.2.2).map
          (fun s => (r.1 ++ s.1, s.2.1, s.2.2))))
      ++ [([], rem, caps)]

/-- The match Python's engine finds when anchoring the search at position
`p` (input suffix `rem`): the highest-priority backtracking result. -/
def matchAt (re : RE) (p : Nat) (rem : List Char) : Option (List Char × Caps) :=
  match mats (reSize re * (rem.length + 1)) re p rem [] with
  | [] => none
  | r :: _ => some (r.1, r.2.2)

/-- A match object: the matched text (group 0) and the captures. -/
structure RMatch where
  text : List Char
  caps : Caps
deriving Repr

/-- `m.group(i)`: group 0 is the whole match; other indices look up the
captures.  `none` models Python raising (no such group / unmatched group). -/
def RMatch.grp (m : RMatch) (i : Nat) : Option (List Char) :=
  if i = 0 then some m.text else m.caps.lookup i

/-- `re.sub(re, f, line)` starting from absolute position `p` on the input
suffix `rem`: scan left to right, replace every non-overlapping match with
`f`'s output, copy non-matching characters.  An empty match emits the
replacement and then copies one character.  Errors raised by `f`
propagate.  `fuel` is a structural recursion budget; every recursive call
consumes at least one input character, so `rem.length + 1` is enough. -/
def reSubFuel (re : RE) (f : RMatch → Except ε (List Char)) :
    Nat → Nat → List Char → Except ε (List Char)
  | 0, _, rem => .ok rem
  | fuel + 1, p, rem =>
    match matchAt re p rem with
    | some (pre, caps) =>
      match f ⟨pre, caps⟩ with
      | .error e => .error e
      | .ok out =>
        if pre = [] then
          match rem with
          | [] => .ok out
          | c :: rest => (reSubFuel re f fuel (p + 1) rest).map (fun t => out ++ c :: t)
        else
          match rem with
          | [] => .ok out
          | _ :: _ =>
            (reSubFuel re f fuel (p + pre.length) (rem.drop pre.length)).map
              (fun t => out ++ t)
    | none =>
      match rem with
      | [] => .ok []
      | c :: rest => (reSubFuel re f fuel (p + 1) rest).map (fun t => c :: t)

/-- `re.sub(re, f, line)` on a whole line. -/
def reSubLine (re : RE) (f : RMatch → Except ε (List Char)) (line : List Char) :
    Except ε (List Char) :=
  reSubFuel re f (line.length + 1) 0 line

/-- `re.search`-style scan: the position, text and captures of the leftmost
match of `re` in the suffix `rem` starting at absolute position `p`, if
any (with fuel as in `reSubFuel`).  Used to state "the pattern matches
nowhere". -/
def searchFuel (re : RE) : Nat → Nat → List Char → Option (Nat × List Char × Caps)
  | 0, _, _ => none
  | fuel + 1, p, rem =>
    match matchAt re p rem with
    | some (pre, caps) => some (p, pre, caps)
    | none =>
      match rem with
      | [] => none
      | _ :: rest => searchFuel re fuel (p + 1) rest

/-- The leftmost match of `re` anywhere in `line`, if any. -/
def searchLine (re : RE) (line : List Char) : Option (Nat × List Char × Caps) :=
  searchFuel re (line.length + 1) 0 line

/-- Python `str.replace(pat, sub)`: replace every non-overlapping
occurrence of `pat`, scanning left to right, with a structural fuel
budget (`s.length` is enough).  (Never called with an empty `pat`; for
totality an empty `pat` replaces nothing.) -/
def replaceFuel (pat sub : List Char) : Nat → List Char → List Char
  | _, [] => []
  | 0, s => s
  | fuel + 1, c :: rest =>
    if pat.isPrefixOf (c :: rest) ∧ pat ≠ [] then
      sub ++ replaceFuel pat sub fuel ((c :: rest).drop pat.length)
    else
      c :: replaceFuel pat sub fuel rest

/-- Python `str.replace(pat, sub)`. -/
def replaceAll (pat sub s : List Char) : List Char :=
  replaceFuel pat sub s.length s

/-- Splice a captured group in front of the rest of an expansion; a failed
group lookup (Python raising "no such group") is an error. -/
def expandGroup (g : Option (List Char)) (t : Except Unit (List Char)) :
    Except Unit (List Char) :=
  match g with
  | some gv => t.map (fun tt => gv ++ tt)
  | none => .error ()

/-- The inner `re.sub(r'\\([0-9])', lambda x: m.group(int(x.group(1))), unescaped)`
of `filter_file` (source lines 57-58), transliterated: scanning the
template left to right, a backslash followed by a digit `d` is replaced by
`m.group(d)`; a backslash not followed by a digit is copied and scanning
resumes at the next character; `m.group` failing (no such group) raises,
modelled as `.error`. -/
def expandTemplate (m : RMatch) : List Char → Except Unit (List Char)
  | [] => .ok []
  | [c] => .ok [c]
  | c :: d :: rest =>
    if c = '\\' ∧ '0' ≤ d ∧ d ≤ '9' then
      expandGroup (m.grp (d.toNat - '0'.toNat)) (expandTemplate m rest)
    else
      (expandTemplate m (d :: rest)).map (fun t => c :: t)

/-- The replacement function `filter_file` builds from a static (string)
replacement (source lines 54-58): first unescape `\\` to `\`, then expand
single-digit backreferences against each match. -/
def staticFun (repl : List Char) (m : RMatch) : Except Unit (List Char) :=
  expandTemplate m (replaceAll ['\\', '\\'] ['\\'] repl)

/-- Split file content into lines the way Python file iteration does: each
line keeps its trailing newline; the last line may lack one; empty content
has no lines. -/
def splitLines : List Char → List (List Char)
  | [] => []
  | c :: rest =>
    if c = '\n' then
      ['\n'] :: splitLines rest
    else
      match splitLines rest with
      | [] => [[c]]
      | l :: ls => (c :: l) :: ls

/-- Run the per-line substitution over every line and reassemble the file
content (the source writes lines out one by one; only the final content is
observable). -/
def filterLines (re : RE) (f : RMatch → Except ε (List Char)) :
    List (List Char) → Except ε (List Char)
  | [] => .ok []
  | l :: ls =>
    match reSubLine re f l with
    | .error e => .error e
    | .ok l' =>
      match filterLines re f ls with
      | .error e => .error e
      | .ok t => .ok (l' ++ t)

/-- Whole-file transform: split into lines, substitute each, concatenate. -/
def filterContent (re : RE) (f : RMatch → Except ε (List Char))
    (c : List Char) : Except ε (List Char) :=
  filterLines re f (splitLines c)

/-- A file system: path to content.  `none` means the file is absent. -/
def FS : Type := String → Option (List Char)

/-- Write (or, with `none`, remove) a file. -/
def upd (fs : FS) (name : String) (v : Option (List Char)) : FS :=
  fun n => if n = name then v else fs n

/-- Failures `filter_file` can propagate: an I/O error (the file to copy is
missing) or an error raised while substituting (by the replacement
callable, or an invalid group reference of a static replacement). -/
inductive FErr (ε : Type) where
  | io
  | user (e : ε)
deriving Repr

/-- `filter_file(regex, repl, *filenames)` (source lines 41-72).  For each
file in order: copy it to `<file>~` (backup), rewrite the file from the
backup line by line, and on any failure move the backup back over the file
and re-raise.  Returns the final file system, or, on failure, the failing
filename, the error, and the file system at that point. -/
def filter_file (re : RE) (f : RMatch → Except ε (List Char)) :
    List String → FS → FS ⊕ (String × FErr ε × FS)
  | [], fs => .inl fs
  | name :: rest, fs =>
    match fs name with
    | none => .inr (name, .io, fs)
    | some content =>
      let fs1 := upd fs (name ++ "~") (some content)
      match filterContent re f content with
      | .ok newContent => filter_file re f rest (upd fs1 name (some newContent))
      | .error e =>
        .inr (name, .user e,
          upd (upd fs1 name (some content)) (name ++ "~") none)

/-- The flag characters accepted by the sed-command patterns. -/
def flagChars : List Char := ['g', 'I', 'p']

/-- `"^s@([^@]*)@(.*)@[gIp]$"` with `@` replaced by the old delimiter
(source lines 93-94): a whole line `s<d>FIELD1<d>FIELD2<d>` followed by
exactly one flag character. -/
def whole_lines (d : Char) : RE :=
  RE.cat [.bol, .chr 's', .chr d, .group 1 (.star (.cls false [d])), .chr d,
    .group 2 (.star .anyc), .chr d, .cls true flagChars, .eol]

/-- `r"'s@((?:\\'|[^@'])*)@((?:\\'|[^'])*)@[gIp]?'"` with `@` replaced by
the old delimiter (source lines 96-97). -/
def single_quoted (d : Char) : RE :=
  RE.cat [.chr '\'', .chr 's', .chr d,
    .group 1 (.star (.alt (.seq (.chr '\\') (.chr '\'')) (.cls false [d, '\'']))),
    .chr d,
    .group 2 (.star (.alt (.seq (.chr '\\') (.chr '\'')) (.cls false ['\'']))),
    .chr d, .opt (.cls true flagChars), .chr '\'']

/-- `r'"s@((?:\\"|[^@"])*)@((?:\\"|[^"])*)@[gIp]?"'` with `@` replaced by
the old delimiter (source lines 99-100). -/
def double_quoted (d : Char) : RE :=
  RE.cat [.chr '"', .chr 's', .chr d,
    .group 1 (.star (.alt (.seq (.chr '\\') (.chr '"')) (.cls false [d, '"']))),
    .chr d,
    .group 2 (.star (.alt (.seq (.chr '\\') (.chr '"')) (.cls false ['"']))),
    .chr d, .opt (.cls true flagChars), .chr '"']

/-- `r's@\1@\2@g'` with `@` replaced by the new delimiter (source lines
102-103): the canonical replacement template. -/
def sedRepl (d : Char) : List Char :=
  ['s', d, '\\', '1', d, '\\', '2', d, 'g']

/-- Outcome of `change_sed_delimiter`: success, an assertion failure on the
delimiter preconditions (raised before any file is opened), or an error
propagated from `filter_file` (with the failing file and the file system at
that point). -/
inductive SedResult where
  | ok (fs : FS)
  | assertFail (fs : FS)
  | failed (f : String) (e : FErr Unit) (fs : FS)

/-- The file system carried by a `SedResult`, applied to a path. -/
def sedStateAt (r : SedResult) (name : String) : Option (List Char) :=
  match r with
  | .ok fs => fs name
  | .assertFail fs => fs name
  | .failed _ _ fs => fs name

/-- The per-file body of `change_sed_delimiter`'s loop (source lines
105-108): three `filter_file` calls on the single file `f` — bare form,
then single-quoted, then double-quoted. -/
def sedOneFile (od nd : Char) (f : String) (fs : FS) :
    FS ⊕ (String × FErr Unit × FS) :=
  match filter_file (whole_lines od) (staticFun (sedRepl nd)) [f] fs with
  | .inr err => .inr err
  | .inl fs1 =>
    match filter_file (single_quoted od)
        (staticFun ('\'' :: sedRepl nd ++ ['\''])) [f] fs1 with
    | .inr err => .inr err
    | .inl fs2 =>
      filter_file (double_quoted od) (staticFun ('"' :: sedRepl nd ++ ['"'])) [f] fs2

/-- The loop of `change_sed_delimiter`: files outermost, the three forms
innermost. -/
def sedLoop (od nd : Char) : List String → FS → FS ⊕ (String × FErr Unit × FS)
  | [], fs => .inl fs
  | f :: rest, fs =>
    match sedOneFile od nd f fs with
    | .inr err => .inr err
    | .inl fs' => sedLoop od nd rest fs'

/-- `change_sed_delimiter(old_delim, new_delim, *filenames)` (source lines
75-108): assert that both delimiters are single non-quote characters —
before any file is touched — then rewrite every file. -/
def change_sed_delimiter (old_delim new_delim : String) (files : List String)
    (fs : FS) : SedResult :=
  if old_delim.length = 1 ∧ new_delim.length = 1 ∧
      old_delim ≠ "\"" ∧ old_delim ≠ "'" ∧ new_delim ≠ "\"" ∧ new_delim ≠ "'" then
    match sedLoop (old_delim.toList.headD ' ') (new_delim.toList.headD ' ') files fs with
    | .inl fs' => .ok fs'
    | .inr (f, e, fs') => .failed f e fs'
  else .assertFail fs

/-- Modelled from the spec: the form-major ordering the spec describes for
`change_sed_delimiter` — "one `substitute` call per form, applied to all
files for that form before moving to the next form, i.e., three full
passes across the file set".  Used only to compare against the source's
file-major loop (`sedLoop`). -/
def change_sed_form_major (old_delim new_delim : String) (files : List String)
    (fs : FS) : SedResult :=
  if old_delim.length = 1 ∧ new_delim.length = 1 ∧
      old_delim ≠ "\"" ∧ old_delim ≠ "'" ∧ new_delim ≠ "\"" ∧ new_delim ≠ "'" then
    let od := old_delim.toList.headD ' '
    let nd := new_delim.toList.headD ' '
    match filter_file (whole_lines od) (staticFun (sedRepl nd)) files fs with
    | .inr (f, e, fs') => .failed f e fs'
    | .inl fs1 =>
      match filter_file (single_quoted od)
          (staticFun ('\'' :: sedRepl nd ++ ['\''])) files fs1 with
      | .inr (f, e, fs') => .failed f e fs'
      | .inl fs2 =>
        match filter_file (double_quoted od)
            (staticFun ('"' :: sedRepl nd ++ ['"'])) files fs2 with
        | .inr (f, e, fs') => .failed f e fs'
        | .inl fs3 => .ok fs3
  else .assertFail fs

/-- The file system carried by a `filter_file` result, applied to a path. -/
def ffStateAt (r : FS ⊕ (String × FErr ε × FS)) (name : String) :
    Option (List Char) :=
  match r with
  | .inl fs => fs name
  | .inr (_, _, fs) => fs name

/-- The failing filename of a `filter_file` result, if it failed. -/
def ffFailed (r : FS ⊕ (String × FErr ε × FS)) : Option String :=
  match r with
  | .inl _ => none
  | .inr (f, _, _) => some f

/-- A file system holding exactly one file. -/
def singleFS (name : String) (content : String) : FS :=
  fun n => if n = name then some content.toList else none

/-- Does a template contain a backreference marker, i.e. a backslash
immediately followed by a digit? -/
def hasBackrefMarker : List Char → Bool
  | [] => false
  | [_] => false
  | c :: d :: rest =>
    (decide (c = '\\') && decide ('0' ≤ d) && decide (d ≤ '9')) ||
      hasBackrefMarker (d :: rest)

/-- A line in the shape the bare-form pattern is built to match:
`s<d>A<d>B<d>` followed by the flag `f` and an optional trailing
newline `nl`. -/
def bareLine (d : Char) (A B : List Char) (f : Char) (nl : List Char) :
    List Char :=
  's' :: d :: (A ++ d :: (B ++ d :: f :: nl))

/-- The replacement callable used in the duplicate-filename counterexample
for the restore-on-failure claim: maps a match on `a` to `b` and raises on
any other match. -/
def replDup : RMatch → Except Unit (List Char) :=
  fun m => if m.text = ['a'] then .ok ['b'] else .error ()

/-- All splits of `X ++ rest` into a prefix of `X` and the corresponding
suffix, longest prefix first.  This is the priority-ordered result list of
a greedy star that can consume exactly the characters of `X`. -/
def splits (X rest : List Char) : List (List Char × List Char) :=
  match X with
  | [] => [([], rest)]
  | c :: X' =>
    (splits X' rest).map (fun pr => (c :: pr.1, pr.2)) ++ [([], c :: X' ++ rest)]

deriving instance DecidableEq for Except

/-- Two consecutive `change_sed_delimiter` runs on the same files. -/
def sedTwice (o1 n1 o2 n2 : String) (files : List String) (fs : FS) : SedResult :=
  match change_sed_delimiter o1 n1 files fs with
  | .ok fs1 => change_sed_delimiter o2 n2 files fs1
  | r => r

/-- The failing filename of a `SedResult`, if a substitution pass failed. -/
def sedFailedFile : SedResult → Option String
  | .failed f _ _ => some f
  | _ => none

/-- A two-file store: `f1` holds `a`, `f2` holds `ab`. -/
def fsTwo : FS := upd (singleFS "f1" "a") "f2" (some "ab".toList)

/-- The store left by `filter_file` on `fsTwo` when the replacement raises
while rewriting `f2`: `f1` was rewritten to `b` with backup `a`; `f2` was
restored and its backup removed. -/
def fsTwoAfter : FS :=
  upd (upd (upd (upd (upd fsTwo ("f1" ++ "~") (some "a".toList))
    "f1" (some "b".toList)) ("f2" ++ "~") (some "ab".toList))
    "f2" (some "ab".toList)) ("f2" ++ "~") none

/-! Helper lemmas about the file-system model and the substitution
driver. -/

theorem upd_same (fs : FS) (n : String) (v : Option (List Char)) :
    upd fs n v n = v := by
  simp [upd]

theorem upd_other (fs : FS) (n : String) (v : Option (List Char)) (m : String)
    (h : m ≠ n) : upd fs n v m = fs m := by
  simp [upd, h]

theorem name_ne_backup (n : String) : n ≠ n ++ "~" := by
  intro h
  have hl := congrArg String.length h
  rw [String.length_append] at hl
  have h1 : "~".length = 1 := rfl
  omega

theorem searchFuel_succ (re : RE) (fuel p : Nat) (rem : List Char) :
    searchFuel re (fuel + 1) p rem =
      match matchAt re p rem with
      | some (pre, caps) => some (p, pre, caps)
      | none =>
        match rem with
        | [] => none
        | _ :: rest => searchFuel re fuel (p + 1) rest := rfl

theorem reSubFuel_succ (re : RE) (f : RMatch → Except ε (List Char))
    (fuel p : Nat) (rem : List Char) :
    reSubFuel re f (fuel + 1) p rem =
      match matchAt re p rem with
      | some (pre, caps) =>
        match f ⟨pre, caps⟩ with
        | .error e => .error e
        | .ok out =>
          if pre = [] then
            match rem with
            | [] => .ok out
            | c :: rest => (reSubFuel re f fuel (p + 1) rest).map (fun t => out ++ c :: t)
          else
            match rem with
            | [] => .ok out
            | _ :: _ =>
              (reSubFuel re f fuel (p + pre.length) (rem.drop pre.length)).map
                (fun t => out ++ t)
      | none =>
        match rem with
        | [] => .ok []
        | c :: rest => (reSubFuel re f fuel (p + 1) rest).map (fun t => c :: t) := rfl

theorem backup_inj {a b : String} (h : a ++ "~" = b ++ "~") : a = b := by
  have hd := congrArg String.data h
  simp only [String.data_append] at hd
  exact String.ext (List.append_cancel_right hd)

theorem reSubFuel_of_searchFuel_none (re : RE) (f : RMatch → Except ε (List Char)) :
    ∀ (fuel : Nat) (p : Nat) (rem : List Char),
      searchFuel re fuel p rem = none → reSubFuel re f fuel p rem = .ok rem := by
  intro fuel
  induction fuel with
  | zero => intro p rem _; rfl
  | succ fuel ih =>
    intro p rem hs
    rw [searchFuel_succ] at hs
    rw [reSubFuel_succ]
    match hM : matchAt re p rem with
    | some (pre, caps) => rw [hM] at hs; exact absurd hs (by simp)
    | none =>
      match rem with
      | [] => rfl
      | c :: rest =>
        rw [hM] at hs
        simp only at hs
        show Except.map (fun t => c :: t) (reSubFuel re f fuel (p + 1) rest) = .ok (c :: rest)
        rw [ih (p + 1) rest hs]
        rfl

theorem reSubLine_of_searchLine_none (re : RE) (f : RMatch → Except ε (List Char))
    (line : List Char) (h : searchLine re line = none) :
    reSubLine re f line = .ok line :=
  reSubFuel_of_searchFuel_none re f (line.length + 1) 0 line h

theorem splitLines_ne_nil (c : List Char) (h : c ≠ []) : splitLines c ≠ [] := by
  match c with
  | [] => exact absurd rfl h
  | x :: rest =>
    rw [splitLines]
    by_cases hx : x = '\n'
    · simp [hx]
    · simp only [hx, if_false]
      match splitLines rest with
      | [] => simp
      | l :: ls => simp

theorem splitLines_flatten : ∀ c : List Char, (splitLines c).flatten = c := by
  intro c
  induction c with
  | nil => rfl
  | cons x rest ih =>
    rw [splitLines]
    by_cases hx : x = '\n'
    · simp [hx, List.flatten]
      exact ih
    · simp only [hx, if_false]
      match hs : splitLines rest with
      | [] =>
        have : rest = [] := by
          by_contra hne
          exact splitLines_ne_nil rest hne hs
        simp [this, List.flatten]
      | l :: ls =>
        rw [hs] at ih
        simp only [List.flatten] at ih ⊢
        simp [ih]

theorem filterLines_id (re : RE) (f : RMatch → Except ε (List Char))
    (lines : List (List Char)) (h : ∀ l ∈ lines, reSubLine re f l = .ok l) :
    filterLines re f lines = .ok lines.flatten := by
  induction lines with
  | nil => rfl
  | cons l ls ih =>
    rw [filterLines]
    rw [h l (by simp)]
    rw [ih (fun x hx => h x (by simp [hx]))]
    simp [List.flatten]

theorem filterContent_id (re : RE) (f : RMatch → Except ε (List Char))
    (c : List Char) (h : ∀ l ∈ splitLines c, searchLine re l = none) :
    filterContent re f c = .ok c := by
  rw [filterContent]
  rw [filterLines_id re f _ (fun l hl => reSubLine_of_searchLine_none re f l (h l hl))]
  rw [splitLines_flatten]

/-- C6: if the pattern matches no line of the file, a `filter_file` call on
that file succeeds, leaves the file's content byte-identical to its
pre-call content, and creates the backup `<file>~` holding that same
content, which stays on disk. -/
theorem filter_file_no_match_id (re : RE) (f : RMatch → Except ε (List Char))
    (name : String) (fs : FS) (c : List Char)
    (hc : fs name = some c)
    (hnm : ∀ l ∈ splitLines c, searchLine re l = none) :
    filter_file re f [name] fs
      = .inl (upd (upd fs (name ++ "~") (some c)) name (some c))
    ∧ upd (upd fs (name ++ "~") (some c)) name (some c) name = some c
    ∧ upd (upd fs (name ++ "~") (some c)) name (some c) (name ++ "~") = some c := by
  have hfc : filterContent re f c = .ok c := filterContent_id re f c hnm
  refine ⟨?_, ?_, ?_⟩
  · rw [filter_file, hc]
    simp only [hfc]
    rw [filter_file]
  · rw [upd_same]
  · rw [upd_other _ _ _ _ (Ne.symm (name_ne_backup name)), upd_same]

/-- Witness for C6 at a concrete input: the pattern `z` matches no line of
`ab\ncd`, and the call leaves the file identical with an identical
backup. -/
theorem filter_file_no_match_id_witness :
    filter_file (RE.chr 'z') (staticFun "q".toList) ["f"] (singleFS "f" "ab\ncd")
      = .inl (upd (upd (singleFS "f" "ab\ncd") ("f" ++ "~") (some "ab\ncd".toList))
          "f" (some "ab\ncd".toList))
    ∧ upd (upd (singleFS "f" "ab\ncd") ("f" ++ "~") (some "ab\ncd".toList))
        "f" (some "ab\ncd".toList) "f" = some "ab\ncd".toList
    ∧ upd (upd (singleFS "f" "ab\ncd") ("f" ++ "~") (some "ab\ncd".toList))
        "f" (some "ab\ncd".toList) ("f" ++ "~") = some "ab\ncd".toList :=
  filter_file_no_match_id (RE.chr 'z') (staticFun "q".toList) "f"
    (singleFS "f" "ab\ncd") "ab\ncd".toList (by decide) (by decide)

/-- C1 (amended): when `filter_file` fails, the failing file is restored to
the content it had when its own processing began and its backup is
removed, while files processed earlier stay mutated with their backups on
disk; under the stated distinctness conditions (no filename repeated and
no filename equal to another's backup name) the restored content is
exactly the pre-call content, and the original error propagates.  A
failure before the backup copy (missing file) leaves everything
untouched. -/
theorem filter_file_restore_on_failure (re : RE) (f : RMatch → Except ε (List Char))
    (files : List String) (fs : FS) (name : String) (e : FErr ε) (fs' : FS)
    (hrun : filter_file re f files fs = .inr (name, e, fs'))
    (hnd : files.Nodup)
    (hnb : ∀ g ∈ files, ∀ h ∈ files, g ≠ h ++ "~") :
    ∃ done rest, files = done ++ name :: rest ∧
      ((fs name = none ∧ e = .io ∧ fs' name = none) ∨
        (∃ c err, fs name = some c ∧ filterContent re f c = .error err ∧
          e = .user err ∧ fs' name = some c ∧ fs' (name ++ "~") = none)) ∧
      (∀ g ∈ done, ∃ cg out, fs g = some cg ∧ filterContent re f cg = .ok out ∧
        fs' g = some out ∧ fs' (g ++ "~") = some cg) ∧
      (∀ p : String, p ∉ done → p ≠ name →
        (∀ g ∈ done, p ≠ g ++ "~") → p ≠ name ++ "~" → fs' p = fs p) := by
  induction files generalizing fs with
  | nil => rw [filter_file] at hrun; exact absurd hrun (by simp)
  | cons g0 rest0 ih =>
    have hg0nr : g0 ∉ rest0 := (List.nodup_cons.mp hnd).1
    have hndr : rest0.Nodup := (List.nodup_cons.mp hnd).2
    rw [filter_file] at hrun
    match hg0 : fs g0 with
    | none =>
      rw [hg0] at hrun
      simp only [Sum.inr.injEq, Prod.mk.injEq] at hrun
      obtain ⟨hname, he, hfs'⟩ := hrun
      subst hname
      refine ⟨[], rest0, by simp, ?_, by simp, ?_⟩
      · exact Or.inl ⟨hg0, he.symm, by rw [← hfs']; exact hg0⟩
      · intro p _ _ _ _
        rw [← hfs']
    | some c =>
      rw [hg0] at hrun
      simp only at hrun
      match hfc : filterContent re f c with
      | .error err =>
        rw [hfc] at hrun
        simp only [Sum.inr.injEq, Prod.mk.injEq] at hrun
        obtain ⟨hname, he, hfs'⟩ := hrun
        subst hname
        refine ⟨[], rest0, by simp, ?_, by simp, ?_⟩
        · refine Or.inr ⟨c, err, hg0, hfc, he.symm, ?_, ?_⟩
          · rw [← hfs', upd_other _ _ _ _ (name_ne_backup g0), upd_same]
          · rw [← hfs', upd_same]
        · intro p _ hpname _ hpbk
          rw [← hfs', upd_other _ _ _ _ hpbk, upd_other _ _ _ _ hpname,
            upd_other _ _ _ _ hpbk]
      | .ok newC =>
        rw [hfc] at hrun
        simp only at hrun
        have hnbr : ∀ g ∈ rest0, ∀ h ∈ rest0, g ≠ h ++ "~" := fun g hg h hh =>
          hnb g (List.mem_cons_of_mem _ hg) h (List.mem_cons_of_mem _ hh)
        obtain ⟨done', rest', hdec, hbranch, hproc, huntouched⟩ :=
          ih (upd (upd fs (g0 ++ "~") (some c)) g0 (some newC)) hrun hndr hnbr
        have hnamer : name ∈ rest0 := by rw [hdec]; simp
        have hnameg0 : name ≠ g0 := fun h => hg0nr (h ▸ hnamer)
        have hdone'r : ∀ g ∈ done', g ∈ rest0 := by
          intro g hg; rw [hdec]; exact List.mem_append_left _ hg
        have hfs2 : ∀ p : String, p ≠ g0 → p ≠ g0 ++ "~" →
            upd (upd fs (g0 ++ "~") (some c)) g0 (some newC) p = fs p := by
          intro p h1 h2
          rw [upd_other _ _ _ _ h1, upd_other _ _ _ _ h2]
        have hnamef : name ∈ g0 :: rest0 := List.mem_cons_of_mem _ hnamer
        have hg0f : g0 ∈ g0 :: rest0 := List.mem_cons_self _ _
        have hname2 : upd (upd fs (g0 ++ "~") (some c)) g0 (some newC) name = fs name :=
          hfs2 name hnameg0 (hnb name hnamef g0 hg0f)
        refine ⟨g0 :: done', rest', by rw [hdec]; simp, ?_, ?_, ?_⟩
        · rcases hbranch with ⟨hn, he, hf⟩ | ⟨c', err, h1, h2, h3, h4, h5⟩
          · exact Or.inl ⟨by rw [← hname2]; exact hn, he, hf⟩
          · exact Or.inr ⟨c', err, by rw [← hname2]; exact h1, h2, h3, h4, h5⟩
        · intro g hg
          rcases List.mem_cons.mp hg with hgg0 | hgd
          · subst hgg0
            refine ⟨c, newC, hg0, hfc, ?_, ?_⟩
            · have := huntouched g
                (fun h => hg0nr (hdone'r g h))
                (Ne.symm hnameg0)
                (fun h hh => hnb g hg0f h (List.mem_cons_of_mem _ (hdone'r h hh)))
                (hnb g hg0f name hnamef)
              rw [this, upd_same]
            · have hbknd : g ++ "~" ∉ done' := by
                intro hmem
                exact hnb (g ++ "~") (List.mem_cons_of_mem _ (hdone'r _ hmem)) g hg0f rfl
              have := huntouched (g ++ "~") hbknd
                (fun h => hnb name hnamef g hg0f h.symm)
                (fun h hh heq => hg0nr ((backup_inj heq) ▸ hdone'r h hh))
                (fun heq => hnameg0 (backup_inj heq).symm)
              rw [this, upd_other _ _ _ _ (Ne.symm (name_ne_backup g)), upd_same]
          · obtain ⟨cg, out, h1, h2, h3, h4⟩ := hproc g hgd
            have hgr : g ∈ rest0 := hdone'r g hgd
            have hgf : g ∈ g0 :: rest0 := List.mem_cons_of_mem _ hgr
            refine ⟨cg, out, ?_, h2, h3, h4⟩
            rw [← hfs2 g (fun h => hg0nr (h ▸ hgr)) (hnb g hgf g0 hg0f)]
            exact h1
        · intro p hp hpname hpbk hpbkname
          have hpg0 : p ≠ g0 := fun h => hp (h ▸ List.mem_cons_self _ _)
          have hpg0bk : p ≠ g0 ++ "~" := hpbk g0 (List.mem_cons_self _ _)
          rw [← hfs2 p hpg0 hpg0bk]
          exact huntouched p (fun h => hp (List.mem_cons_of_mem _ h)) hpname
            (fun g hg => hpbk g (List.mem_cons_of_mem _ hg)) hpbkname

/-- Witness for C1 at a concrete input: two distinct files; the replacement
succeeds on `f1` (rewritten `a` to `b`) and raises on `f2`, which is
restored to `ab` with its backup removed while `f1` stays mutated with its
backup on disk. -/
theorem filter_file_restore_on_failure_witness :
    ∃ done rest, ["f1", "f2"] = done ++ "f2" :: rest ∧
      ((fsTwo "f2" = none ∧ (FErr.user () : FErr Unit) = .io ∧ fsTwoAfter "f2" = none) ∨
        (∃ c err, fsTwo "f2" = some c ∧
          filterContent (RE.cls true ['a', 'b']) replDup c = .error err ∧
          (FErr.user () : FErr Unit) = .user err ∧ fsTwoAfter "f2" = some c ∧
          fsTwoAfter ("f2" ++ "~") = none)) ∧
      (∀ g ∈ done, ∃ cg out, fsTwo g = some cg ∧
        filterContent (RE.cls true ['a', 'b']) replDup cg = .ok out ∧
        fsTwoAfter g = some out ∧ fsTwoAfter (g ++ "~") = some cg) ∧
      (∀ p : String, p ∉ done → p ≠ "f2" →
        (∀ g ∈ done, p ≠ g ++ "~") → p ≠ "f2" ++ "~" → fsTwoAfter p = fsTwo p) :=
  filter_file_restore_on_failure (RE.cls true ['a', 'b']) replDup ["f1", "f2"]
    fsTwo "f2" (.user ()) fsTwoAfter rfl (by decide) (by decide)

theorem filter_file_single_fail (re : RE) (f : RMatch → Except ε (List Char))
    (name g : String) (fs : FS) (e : FErr ε) (fs' : FS)
    (h : filter_file re f [name] fs = .inr (g, e, fs')) : g = name := by
  rw [filter_file] at h
  match hg : fs name with
  | none =>
    rw [hg] at h
    simp only [Sum.inr.injEq, Prod.mk.injEq] at h
    exact h.1.symm
  | some c =>
    rw [hg] at h
    simp only at h
    match hfc : filterContent re f c with
    | .ok newC =>
      rw [hfc] at h
      simp only at h
      rw [filter_file] at h
      exact absurd h (by simp)
    | .error err =>
      rw [hfc] at h
      simp only [Sum.inr.injEq, Prod.mk.injEq] at h
      exact h.1.symm

theorem sedOneFile_fail_name (od nd : Char) (name g : String) (fs : FS)
    (e : FErr Unit) (fs' : FS)
    (h : sedOneFile od nd name fs = .inr (g, e, fs')) : g = name := by
  rw [sedOneFile] at h
  match h1 : filter_file (whole_lines od) (staticFun (sedRepl nd)) [name] fs with
  | .inr err =>
    rw [h1] at h
    simp only [Sum.inr.injEq] at h
    exact filter_file_single_fail _ _ _ _ _ _ _ (h ▸ h1)
  | .inl fs1 =>
    rw [h1] at h
    simp only at h
    match h2 : filter_file (single_quoted od)
        (staticFun ('\'' :: sedRepl nd ++ ['\''])) [name] fs1 with
    | .inr err =>
      rw [h2] at h
      simp only [Sum.inr.injEq] at h
      exact filter_file_single_fail _ _ _ _ _ _ _ (h ▸ h2)
    | .inl fs2 =>
      rw [h2] at h
      simp only at h
      exact filter_file_single_fail _ _ _ _ _ _ _ h

theorem sedLoop_inr_spec (od nd : Char) (files : List String) (fs : FS)
    (name : String) (e : FErr Unit) (fs' : FS)
    (hrun : sedLoop od nd files fs = .inr (name, e, fs')) :
    ∃ done rest fsd, files = done ++ name :: rest ∧
      sedLoop od nd done fs = .inl fsd ∧
      sedOneFile od nd name fsd = .inr (name, e, fs') := by
  induction files generalizing fs with
  | nil => rw [sedLoop] at hrun; exact absurd hrun (by simp)
  | cons g0 rest0 ih =>
    rw [sedLoop] at hrun
    match h1 : sedOneFile od nd g0 fs with
    | .inr (g', e', fs'') =>
      rw [h1] at hrun
      simp only [Sum.inr.injEq, Prod.mk.injEq] at hrun
      obtain ⟨hg, he, hf⟩ := hrun
      have hgname : g' = g0 := sedOneFile_fail_name od nd g0 g' fs e' fs'' h1
      refine ⟨[], rest0, fs, ?_, rfl, ?_⟩
      · simp [← hg, hgname]
      · rw [hgname] at h1
        rw [hg] at hgname
        rw [hgname, h1, he, hf]
    | .inl fs1 =>
      rw [h1] at hrun
      simp only at hrun
      obtain ⟨done', rest', fsd, hdec, hloop, hone⟩ := ih fs1 hrun
      refine ⟨g0 :: done', rest', fsd, by rw [hdec]; simp, ?_, hone⟩
      rw [sedLoop, h1]
      exact hloop

/-- C9 (amended): `change_sed_delimiter` is file-major, not form-major:
each file receives the bare, single-quoted and double-quoted passes
consecutively before the next file is touched.  Consequently, when the run
fails at a file, every earlier file in the list has already been fully
processed by all three passes, and the reported state comes from the
failing file's own three-pass processing — no later file was touched. -/
theorem change_sed_file_major (old_delim new_delim : String) (files : List String)
    (fs : FS) (name : String)
    (hrun : sedFailedFile (change_sed_delimiter old_delim new_delim files fs)
      = some name) :
    ∃ done rest fsd, files = done ++ name :: rest ∧
      sedLoop (old_delim.toList.headD ' ') (new_delim.toList.headD ' ') done fs
        = .inl fsd ∧
      ffFailed (sedOneFile (old_delim.toList.headD ' ')
        (new_delim.toList.headD ' ') name fsd) = some name ∧
      (∀ p : String,
        sedStateAt (change_sed_delimiter old_delim new_delim files fs) p
          = ffStateAt (sedOneFile (old_delim.toList.headD ' ')
              (new_delim.toList.headD ' ') name fsd) p) := by
  rw [change_sed_delimiter] at hrun ⊢
  by_cases hok : old_delim.length = 1 ∧ new_delim.length = 1 ∧
      old_delim ≠ "\"" ∧ old_delim ≠ "'" ∧ new_delim ≠ "\"" ∧ new_delim ≠ "'"
  · rw [if_pos hok] at hrun ⊢
    match hL : sedLoop (old_delim.toList.headD ' ') (new_delim.toList.headD ' ')
        files fs with
    | .inl fs1 => rw [hL] at hrun; simp [sedFailedFile] at hrun
    | .inr (g, e, fs') =>
      rw [hL] at hrun
      simp only [sedFailedFile, Option.some.injEq] at hrun
      subst hrun
      obtain ⟨done, rest, fsd, hdec, hloop, hone⟩ :=
        sedLoop_inr_spec _ _ files fs g e fs' hL
      refine ⟨done, rest, fsd, hdec, hloop, by rw [hone]; rfl, ?_⟩
      intro p
      rw [hone]
      rfl
  · rw [if_neg hok] at hrun
    simp [sedFailedFile] at hrun

/-- Witness for C9 at a concrete input: with `f1` holding a single-quoted
sed command and `f2` absent, the failure at `f2` comes after `f1`'s full
three-pass processing. -/
theorem change_sed_file_major_witness :
    ∃ done rest fsd, ["f1", "f2"] = done ++ "f2" :: rest ∧
      sedLoop ("/".toList.headD ' ') ("@".toList.headD ' ') done
        (singleFS "f1" "'s/a/b/'\n") = .inl fsd ∧
      ffFailed (sedOneFile ("/".toList.headD ' ') ("@".toList.headD ' ')
        "f2" fsd) = some "f2" ∧
      (∀ p : String,
        sedStateAt (change_sed_delimiter "/" "@" ["f1", "f2"]
          (singleFS "f1" "'s/a/b/'\n")) p
          = ffStateAt (sedOneFile ("/".toList.headD ' ') ("@".toList.headD ' ')
              "f2" fsd) p) :=
  change_sed_file_major "/" "@" ["f1", "f2"] (singleFS "f1" "'s/a/b/'\n") "f2"
    (by decide)

/-! Helper lemmas about the matcher on the specific pattern shapes the
sed rewriter uses. -/

theorem reSize_pos (re : RE) : 1 ≤ reSize re := by
  cases re <;> simp [reSize] <;> omega

theorem mats_seq (fuel : Nat) (a b : RE) (p : Nat) (rem : List Char) (caps : Caps) :
    mats (fuel + 1) (.seq a b) p rem caps
      = (mats fuel a p rem caps).flatMap (fun r =>
          (mats fuel b (p + r.1.length) r.2.1 r.2.2).map
            (fun s => (r.1 ++ s.1, s.2.1, s.2.2))) := rfl

theorem mats_alt (fuel : Nat) (a b : RE) (p : Nat) (rem : List Char) (caps : Caps) :
    mats (fuel + 1) (.alt a b) p rem caps
      = mats fuel a p rem caps ++ mats fuel b p rem caps := rfl

theorem mats_group (fuel : Nat) (i : Nat) (a : RE) (p : Nat) (rem : List Char)
    (caps : Caps) :
    mats (fuel + 1) (.group i a) p rem caps
      = (mats fuel a p rem caps).map (fun r => (r.1, r.2.1, setCap r.2.2 i r.1)) := rfl

theorem mats_star_succ (fuel : Nat) (a : RE) (p : Nat) (rem : List Char) (caps : Caps) :
    mats (fuel + 1) (.star a) p rem caps
      = (((mats fuel a p rem caps).filter (fun r => r.1 ≠ [])).flatMap (fun r =>
          (mats fuel (.star a) (p + r.1.length) r.2.1 r.2.2).map
            (fun s => (r.1 ++ s.1, s.2.1, s.2.2))))
        ++ [([], rem, caps)] := rfl

theorem mats_cls_nil (fuel : Nat) (b : Bool) (cs : List Char) (p : Nat) (caps : Caps) :
    mats fuel (.cls b cs) p [] caps = [] := by
  match fuel with
  | 0 => rfl
  | _ + 1 => rfl

theorem mats_cls_cons (fuel : Nat) (b : Bool) (cs : List Char) (p : Nat) (c : Char)
    (rest : List Char) (caps : Caps) :
    mats fuel (.cls b cs) p (c :: rest) caps
      = if cs.contains c = b then [([c], rest, caps)] else [] := by
  match fuel with
  | 0 => rfl
  | _ + 1 => rfl

theorem mats_eps (fuel : Nat) (p : Nat) (rem : List Char) (caps : Caps) :
    mats fuel .eps p rem caps = [([], rem, caps)] := by
  match fuel with
  | 0 => rfl
  | _ + 1 => rfl

theorem mats_bol (fuel : Nat) (p : Nat) (rem : List Char) (caps : Caps) :
    mats fuel .bol p rem caps = if p = 0 then [([], rem, caps)] else [] := by
  match fuel with
  | 0 => rfl
  | _ + 1 => rfl

theorem mats_eol (fuel : Nat) (p : Nat) (rem : List Char) (caps : Caps) :
    mats fuel .eol p rem caps
      = if rem = [] ∨ rem = ['\n'] then [([], rem, caps)] else [] := by
  match fuel with
  | 0 => rfl
  | _ + 1 => rfl

theorem mats_fuel_zero (re : RE) (p : Nat) (rem : List Char) (caps : Caps)
    (h : ∀ b cs, re ≠ .cls b cs) (heps : re ≠ .eps) (hbol : re ≠ .bol)
    (heol : re ≠ .eol) : mats 0 re p rem caps = [] := by
  cases re with
  | eps => exact absurd rfl heps
  | bol => exact absurd rfl hbol
  | eol => exact absurd rfl heol
  | cls b cs => exact absurd rfl (h b cs)
  | seq a b => rfl
  | alt a b => rfl
  | star a => rfl
  | group i a => rfl

theorem splits_mem_char (X rest : List Char) (pr : List Char × List Char)
    (h : pr ∈ splits X rest) : ∃ k ≤ X.length, pr = (X.take k, X.drop k ++ rest) := by
  induction X generalizing pr with
  | nil =>
    rw [splits] at h
    simp at h
    exact ⟨0, by simp, by simp [h]⟩
  | cons c X' ih =>
    rw [splits] at h
    rcases List.mem_append.mp h with hm | hm
    · obtain ⟨pr', hpr', heq⟩ := List.mem_map.mp hm
      obtain ⟨k, hk, hpr⟩ := ih pr' hpr'
      refine ⟨k + 1, by simpa using hk, ?_⟩
      rw [← heq, hpr]
      simp
    · simp at hm
      exact ⟨0, by simp, by simp [hm]⟩

theorem splits_take_mem (X rest : List Char) (k : Nat) (hk : k ≤ X.length) :
    (X.take k, X.drop k ++ rest) ∈ splits X rest := by
  induction X generalizing k with
  | nil =>
    rw [splits]
    simp at hk
    simp [hk]
  | cons c X' ih =>
    rw [splits]
    match k with
    | 0 => simp
    | k + 1 =>
      refine List.mem_append_left _ ?_
      refine List.mem_map.mpr ⟨(X'.take k, X'.drop k ++ rest), ih k (by simpa using hk), ?_⟩
      simp

theorem splits_first_nodup (X rest : List Char) :
    ((splits X rest).map Prod.fst).Nodup := by
  induction X with
  | nil => simp [splits]
  | cons c X' ih =>
    rw [splits]
    rw [List.map_append, List.map_map]
    rw [List.nodup_append]
    refine ⟨?_, by simp, ?_⟩
    · rw [show (Prod.fst ∘ fun pr : List Char × List Char => (c :: pr.1, pr.2))
          = (fun l : List Char => c :: l) ∘ Prod.fst from rfl]
      rw [← List.map_map]
      exact List.Nodup.map (fun a b h => by simpa using h) ih
    · intro a ha
      obtain ⟨pr, _, hpr⟩ := List.mem_map.mp ha
      simp only [List.map_cons, List.map_nil]
      intro hmem
      rw [List.mem_singleton] at hmem
      rw [← hpr] at hmem
      simp at hmem

theorem splits_nodup (X rest : List Char) : (splits X rest).Nodup :=
  (splits_first_nodup X rest).of_map Prod.fst

theorem flatMap_eq_single {α β : Type _} (l : List α) (g : α → List β) (x : α)
    (hnd : l.Nodup) (hx : x ∈ l) (hdead : ∀ y ∈ l, y ≠ x → g y = []) :
    l.flatMap g = g x := by
  induction l with
  | nil => exact absurd hx (by simp)
  | cons a t ih =>
    rw [List.flatMap_cons]
    rcases List.mem_cons.mp hx with hax | hxt
    · have hxt : x ∉ t := by
        rw [hax]
        exact (List.nodup_cons.mp hnd).1
      have ht : t.flatMap g = [] := by
        rw [List.flatMap_eq_nil_iff]
        intro y hy
        exact hdead y (List.mem_cons_of_mem _ hy) (fun h => hxt (h ▸ hy))
      rw [ht, ← hax, List.append_nil]
    · have ha : g a = [] := hdead a (List.mem_cons_self _ _)
        (fun h => (List.nodup_cons.mp hnd).1 (h ▸ hxt))
      rw [ha, List.nil_append]
      exact ih (List.nodup_cons.mp hnd).2 hxt
        (fun y hy => hdead y (List.mem_cons_of_mem _ hy))

theorem mats_star_cls (bad : List Char) (X rest : List Char) (p : Nat) (caps : Caps)
    (hX : ∀ c ∈ X, bad.contains c = false)
    (hrest : rest = [] ∨ ∃ c t, rest = c :: t ∧ bad.contains c = true) :
    ∀ fuel, X.length + 1 ≤ fuel →
      mats fuel (.star (.cls false bad)) p (X ++ rest) caps
        = (splits X rest).map (fun pr => (pr.1, pr.2, caps)) := by
  induction X generalizing p with
  | nil =>
    intro fuel hfuel
    match fuel, hfuel with
    | fuel + 1, _ =>
      rw [mats_star_succ]
      have hbody : mats fuel (.cls false bad) p ([] ++ rest) caps = [] := by
        rcases hrest with h | ⟨c, t, hct, hc⟩
        · rw [h]
          simp [mats_cls_nil]
        · rw [hct, List.nil_append, mats_cls_cons, hc]
          simp
      rw [hbody]
      simp [splits]
  | cons c X' ih =>
    intro fuel hfuel
    match fuel, hfuel with
    | fuel + 1, hfuel =>
      rw [mats_star_succ]
      have hc : bad.contains c = false := hX c (List.mem_cons_self _ _)
      have hbody : mats fuel (.cls false bad) p ((c :: X') ++ rest) caps
          = [([c], X' ++ rest, caps)] := by
        rw [List.cons_append, mats_cls_cons, hc]
        simp
      rw [hbody]
      have hrec := ih (p + 1) (fun a ha => hX a (List.mem_cons_of_mem _ ha)) fuel
        (by simp only [List.length_cons] at hfuel; omega)
      have hfilter : ([([c], X' ++ rest, caps)].filter (fun r => r.1 ≠ []))
          = [([c], X' ++ rest, caps)] := by simp
      rw [hfilter]
      rw [List.flatMap_cons, List.flatMap_nil]
      simp only [List.length_cons, List.length_nil, List.append_nil]
      rw [hrec]
      rw [splits]
      simp [List.map_map, Function.comp]

theorem mats_seq_chr_dead (d : Char) (K : RE) (fuel p : Nat) (caps : Caps)
    (rem : List Char) (h : rem = [] ∨ ∃ c t, rem = c :: t ∧ c ≠ d) :
    mats fuel (.seq (.chr d) K) p rem caps = [] := by
  match fuel with
  | 0 => rfl
  | fuel + 1 =>
    rw [RE.chr, mats_seq]
    rcases h with h | ⟨c, t, hct, hc⟩
    · rw [h, mats_cls_nil]; rfl
    · rw [hct, mats_cls_cons]
      have hcon : ([d].contains c) = false := by simpa using hc
      rw [hcon]
      simp

theorem mats_seq_chr_live (d : Char) (K : RE) (fuel q : Nat) (tail : List Char)
    (cp : Caps) (hfuel : 1 ≤ fuel) :
    mats fuel (.seq (.chr d) K) q (d :: tail) cp
      = (mats (fuel - 1) K (q + 1) tail cp).map (fun s => (d :: s.1, s.2.1, s.2.2)) := by
  match fuel, hfuel with
  | fuel + 1, _ =>
    rw [RE.chr, mats_seq, mats_cls_cons]
    simp [List.contains]

theorem eolEps_live (fuel p : Nat) (caps : Caps) (nl : List Char)
    (hnl : nl = [] ∨ nl = ['\n']) (hfuel : 2 ≤ fuel) :
    mats fuel (.seq .eol .eps) p nl caps = [([], nl, caps)] := by
  obtain ⟨f, rfl⟩ : ∃ f, fuel = f + 2 := ⟨fuel - 2, by omega⟩
  rw [mats_seq, mats_eol, if_pos hnl]
  rw [List.flatMap_cons, List.flatMap_nil, mats_eps]
  simp

theorem eolEps_dead (fuel p : Nat) (caps : Caps) (b : List Char)
    (hb : ¬(b = [] ∨ b = ['\n'])) :
    mats fuel (.seq .eol .eps) p b caps = [] := by
  match fuel with
  | 0 => rfl
  | fuel + 1 =>
    rw [mats_seq, mats_eol, if_neg hb]
    rfl

theorem flagTail_live (fuel p : Nat) (caps : Caps) (fl : Char) (nl : List Char)
    (hfl : flagChars.contains fl = true) (hnl : nl = [] ∨ nl = ['\n'])
    (hfuel : 3 ≤ fuel) :
    mats fuel (.seq (.cls true flagChars) (.seq .eol .eps)) p (fl :: nl) caps
      = [([fl], nl, caps)] := by
  obtain ⟨f, rfl⟩ : ∃ f, fuel = f + 1 := ⟨fuel - 1, by omega⟩
  rw [mats_seq, mats_cls_cons, hfl, if_pos rfl]
  rw [List.flatMap_cons, List.flatMap_nil]
  rw [eolEps_live _ _ _ _ hnl (by omega)]
  simp

theorem flagTail_dead (fuel p : Nat) (caps : Caps) (b1 : List Char)
    (h : ¬ ∃ fl nl, b1 = fl :: nl ∧ flagChars.contains fl = true ∧
      (nl = [] ∨ nl = ['\n'])) :
    mats fuel (.seq (.cls true flagChars) (.seq .eol .eps)) p b1 caps = [] := by
  match fuel with
  | 0 => rfl
  | fuel + 1 =>
    match b1 with
    | [] => rw [mats_seq, mats_cls_nil]; rfl
    | fl :: nl =>
      rw [mats_seq, mats_cls_cons]
      match hfl : flagChars.contains fl with
      | false => simp
      | true =>
        rw [if_pos rfl]
        rw [List.flatMap_cons, List.flatMap_nil]
        have hnl : ¬(nl = [] ∨ nl = ['\n']) := fun hnl => h ⟨fl, nl, rfl, hfl, hnl⟩
        rw [eolEps_dead _ _ _ _ hnl]
        simp

theorem bareTail_live (d fl : Char) (nl : List Char) (fuel p : Nat) (caps : Caps)
    (hfl : flagChars.contains fl = true) (hnl : nl = [] ∨ nl = ['\n'])
    (hfuel : 4 ≤ fuel) :
    mats fuel (.seq (.chr d) (.seq (.cls true flagChars) (.seq .eol .eps))) p
      (d :: fl :: nl) caps = [([d, fl], nl, caps)] := by
  rw [mats_seq_chr_live _ _ _ _ _ _ (by omega)]
  rw [flagTail_live _ _ _ _ _ hfl hnl (by omega)]
  rfl

theorem bareTail_dead (d : Char) (fuel p : Nat) (caps : Caps) (b : List Char)
    (h : ¬ ∃ fl nl, b = d :: fl :: nl ∧ flagChars.contains fl = true ∧
      (nl = [] ∨ nl = ['\n'])) :
    mats fuel (.seq (.chr d) (.seq (.cls true flagChars) (.seq .eol .eps))) p b
      caps = [] := by
  match b with
  | [] => exact mats_seq_chr_dead _ _ _ _ _ _ (Or.inl rfl)
  | c :: b1 =>
    by_cases hcd : c = d
    · subst hcd
      match fuel with
      | 0 => rfl
      | fuel + 1 =>
        rw [mats_seq_chr_live _ _ _ _ _ _ (by omega)]
        have hb1 : ¬ ∃ fl nl, b1 = fl :: nl ∧ flagChars.contains fl = true ∧
            (nl = [] ∨ nl = ['\n']) := by
          rintro ⟨fl, nl, rfl, hfl, hnl⟩
          exact h ⟨fl, nl, rfl, hfl, hnl⟩
        rw [flagTail_dead _ _ _ _ hb1]
        rfl
    · exact mats_seq_chr_dead _ _ _ _ _ _ (Or.inr ⟨c, b1, rfl, hcd⟩)

theorem flag_ne_newline (fl : Char) (hfl : flagChars.contains fl = true) :
    fl ≠ '\n' := by
  have : fl = 'g' ∨ fl = 'I' ∨ fl = 'p' := by simpa [flagChars] using hfl
  rcases this with rfl | rfl | rfl <;> decide

theorem mats_field2 (d fl : Char) (B nl : List Char) (q : Nat) (caps : Caps)
    (hB : '\n' ∉ B) (hfl : flagChars.contains fl = true) (hd : d ≠ '\n')
    (hnl : nl = [] ∨ nl = ['\n']) :
    ∀ fuel, B.length + 8 ≤ fuel →
    mats fuel (.seq (.group 2 (.star .anyc))
        (.seq (.chr d) (.seq (.cls true flagChars) (.seq .eol .eps)))) q
      (B ++ d :: fl :: nl) caps
      = [(B ++ [d, fl], nl, setCap caps 2 B)] := by
  intro fuel hfuel
  obtain ⟨f2, rfl⟩ : ∃ f2, fuel = f2 + 2 := ⟨fuel - 2, by omega⟩
  have hXr : B ++ d :: fl :: nl = (B ++ [d, fl]) ++ nl := by simp
  have hXlen : (B ++ [d, fl]).length = B.length + 2 := by simp
  have hXmem : ∀ c ∈ B ++ [d, fl], c ≠ '\n' := by
    intro c hc
    rcases List.mem_append.mp hc with h | h
    · exact fun hcn => hB (hcn ▸ h)
    · rcases List.mem_cons.mp h with rfl | h
      · exact hd
      · rcases List.mem_cons.mp h with rfl | h
        · exact flag_ne_newline _ hfl
        · exact absurd h (by simp)
  rw [hXr, mats_seq, mats_group]
  rw [RE.anyc]
  rw [mats_star_cls ['\n'] (B ++ [d, fl]) nl q caps
    (fun c hc => by simpa using hXmem c hc)
    (by rcases hnl with rfl | rfl
        · exact Or.inl rfl
        · exact Or.inr ⟨'\n', [], rfl, by decide⟩)
    f2 (by omega)]
  rw [List.map_map, List.flatMap_map]
  simp only [Function.comp]
  rw [flatMap_eq_single _ _ (((B ++ [d, fl]).take B.length,
      (B ++ [d, fl]).drop B.length ++ nl)) (splits_nodup _ _)
    (splits_take_mem _ _ B.length (by omega)) ?_]
  · rw [show (B ++ [d, fl]).take B.length = B from List.take_left B [d, fl]]
    rw [show (B ++ [d, fl]).drop B.length = [d, fl] from List.drop_left B [d, fl]]
    show (mats (f2 + 1) (.seq (.chr d) (.seq (.cls true flagChars) (.seq .eol .eps)))
        (q + B.length) (d :: fl :: nl) (setCap caps 2 B)).map
        (fun s => (B ++ s.1, s.2.1, s.2.2)) = _
    rw [bareTail_live d fl nl (f2 + 1) (q + B.length) (setCap caps 2 B) hfl hnl
      (by omega)]
    simp
  · intro y hy hyx
    obtain ⟨k, hk, rfl⟩ := splits_mem_char _ _ _ hy
    have hkB : k ≠ B.length := by
      rintro rfl
      exact hyx rfl
    show (mats (f2 + 1) (.seq (.chr d) (.seq (.cls true flagChars) (.seq .eol .eps)))
        _ _ _).map _ = _
    rw [bareTail_dead _ _ _ _ _ ?_]
    · rfl
    · rintro ⟨fl', nl', heq, hfl', hnl'⟩
      have heq' : (B ++ [d, fl]).drop k ++ nl = d :: fl' :: nl' := heq
      have hlen := congrArg List.length heq'
      rw [List.length_append, List.length_drop, hXlen] at hlen
      simp only [List.length_cons] at hlen
      rcases hnl with rfl | rfl <;> rcases hnl' with rfl | rfl
      · simp at hlen
        omega
      · have hmem : '\n' ∈ (B ++ [d, fl]).drop k := by
          have hx : '\n' ∈ (B ++ [d, fl]).drop k ++ ([] : List Char) := by
            rw [heq']; simp
          simpa using hx
        exact absurd (hXmem '\n' (List.mem_of_mem_drop hmem)) (by simp)
      · have hk1 : k = B.length + 1 := by simp at hlen; omega
        subst hk1
        have hdrop : (B ++ [d, fl]).drop (B.length + 1) = [fl] := by
          rw [List.drop_append]
          rfl
        rw [hdrop] at heq'
        simp only [List.cons_append, List.nil_append, List.cons.injEq] at heq'
        rw [← heq'.2.1] at hfl'
        exact absurd hfl' (by decide)
      · simp at hlen
        omega

theorem mats_field1 (d : Char) (A tail : List Char) (K : RE) (p : Nat) (caps : Caps)
    (hA : ∀ c ∈ A, c ≠ d) :
    ∀ fuel, A.length + 3 ≤ fuel →
    mats fuel (.seq (.group 1 (.star (.cls false [d]))) (.seq (.chr d) K)) p
      (A ++ d :: tail) caps
      = (mats (fuel - 2) K (p + A.length + 1) tail (setCap caps 1 A)).map
          (fun s => (A ++ d :: s.1, s.2.1, s.2.2)) := by
  intro fuel hfuel
  obtain ⟨f2, rfl⟩ : ∃ f2, fuel = f2 + 2 := ⟨fuel - 2, by omega⟩
  rw [mats_seq, mats_group]
  rw [mats_star_cls [d] A (d :: tail) p caps
    (fun c hc => by simpa using hA c hc)
    (Or.inr ⟨d, tail, rfl, by simp⟩)
    f2 (by omega)]
  rw [List.map_map, List.flatMap_map]
  simp only [Function.comp]
  rw [flatMap_eq_single _ _ ((A.take A.length, A.drop A.length ++ (d :: tail)))
    (splits_nodup _ _) (splits_take_mem _ _ A.length (by omega)) ?_]
  · rw [List.take_length, List.drop_length, List.nil_append]
    rw [mats_seq_chr_live _ _ _ _ _ _ (by omega)]
    rw [List.map_map]
    simp [Function.comp]
  · intro y hy hyx
    obtain ⟨k, hk, rfl⟩ := splits_mem_char _ _ _ hy
    have hkA : k ≠ A.length := fun h => hyx (by rw [h])
    have hklt : k < A.length := by omega
    have hdropk : A.drop k = A[k] :: A.drop (k + 1) :=
      List.drop_eq_getElem_cons hklt
    rw [mats_seq_chr_dead d K _ _ _ _
      (Or.inr ⟨A[k], A.drop (k + 1) ++ d :: tail, by rw [hdropk, List.cons_append],
        hA A[k] (List.getElem_mem hklt)⟩)]
    rfl

theorem mats_whole_lines (d : Char) (A B nl : List Char) (fl : Char)
    (hA : ∀ c ∈ A, c ≠ d) (hB : '\n' ∉ B) (hfl : flagChars.contains fl = true)
    (hd : d ≠ '\n') (hnl : nl = [] ∨ nl = ['\n']) :
    ∀ fuel, A.length + B.length + 15 ≤ fuel →
    mats fuel (whole_lines d) 0 (bareLine d A B fl nl) []
      = [('s' :: d :: (A ++ d :: (B ++ [d, fl])), nl,
          setCap (setCap [] 1 A) 2 B)] := by
  intro fuel hfuel
  obtain ⟨f, rfl⟩ : ∃ f, fuel = f + 3 := ⟨fuel - 3, by omega⟩
  rw [whole_lines, RE.cat]
  simp only [List.foldr]
  rw [bareLine]
  rw [mats_seq, mats_bol, if_pos rfl]
  simp only [List.flatMap_cons, List.flatMap_nil, List.length_nil, Nat.add_zero,
    List.append_nil]
  rw [mats_seq_chr_live 's' _ (f + 2) 0 (d :: (A ++ d :: (B ++ d :: fl :: nl))) []
    (by omega)]
  rw [mats_seq_chr_live d _ (f + 2 - 1) 1 (A ++ d :: (B ++ d :: fl :: nl)) []
    (by omega)]
  rw [mats_field1 d A (B ++ d :: fl :: nl) _ _ _ hA (f + 2 - 1 - 1) (by omega)]
  rw [mats_field2 d fl B nl _ _ hB hfl hd hnl (f + 2 - 1 - 1 - 2) (by omega)]
  simp

theorem matchAt_whole_lines (d : Char) (A B nl : List Char) (fl : Char)
    (hA : ∀ c ∈ A, c ≠ d) (hB : '\n' ∉ B) (hfl : flagChars.contains fl = true)
    (hd : d ≠ '\n') (hnl : nl = [] ∨ nl = ['\n']) :
    matchAt (whole_lines d) 0 (bareLine d A B fl nl)
      = some ('s' :: d :: (A ++ d :: (B ++ [d, fl])),
          setCap (setCap [] 1 A) 2 B) := by
  rw [matchAt]
  have hsize : reSize (whole_lines d) = 23 := rfl
  have hlen : (bareLine d A B fl nl).length = A.length + B.length + nl.length + 5 := by
    simp [bareLine]
    omega
  rw [mats_whole_lines d A B nl fl hA hB hfl hd hnl _ (by rw [hsize, hlen]; omega)]

theorem replaceFuel_step (c : Char) (rest : List Char) (fuel : Nat)
    (h : c ≠ '\\' ∨ ∀ t, rest ≠ '\\' :: t) :
    replaceFuel ['\\', '\\'] ['\\'] (fuel + 1) (c :: rest)
      = c :: replaceFuel ['\\', '\\'] ['\\'] fuel rest := by
  rw [replaceFuel]
  rw [if_neg]
  rintro ⟨hp, -⟩
  rw [List.isPrefixOf] at hp
  simp only [Bool.and_eq_true, beq_iff_eq] at hp
  obtain ⟨hc, hrest⟩ := hp
  rcases h with h | h
  · exact h hc.symm
  · match rest, hrest with
    | c2 :: t, hrest =>
      rw [List.isPrefixOf] at hrest
      simp only [Bool.and_eq_true, beq_iff_eq] at hrest
      exact h t (by rw [← hrest.1])

theorem sedRepl_unescape (nd : Char) (hnd : nd ≠ '\\') :
    replaceAll ['\\', '\\'] ['\\'] (sedRepl nd) = sedRepl nd := by
  have h9 : (sedRepl nd).length = 9 := rfl
  rw [replaceAll, h9, sedRepl]
  rw [replaceFuel_step _ _ _ (Or.inl (by decide))]
  rw [replaceFuel_step _ _ _ (Or.inl hnd)]
  rw [replaceFuel_step _ _ _
    (Or.inr (fun t h => by injection h with h1 _; exact absurd h1 (by decide)))]
  rw [replaceFuel_step _ _ _ (Or.inl (by decide))]
  rw [replaceFuel_step _ _ _ (Or.inl hnd)]
  rw [replaceFuel_step _ _ _
    (Or.inr (fun t h => by injection h with h1 _; exact absurd h1 (by decide)))]
  rw [replaceFuel_step _ _ _ (Or.inl (by decide))]
  rw [replaceFuel_step _ _ _ (Or.inl hnd)]
  rw [replaceFuel_step _ _ _ (Or.inr (fun t h => by simp at h))]
  rfl

theorem expandTemplate_sedRepl (nd : Char) (hnd : nd ≠ '\\') (m : RMatch)
    (g1 g2 : List Char) (h1 : m.grp 1 = some g1) (h2 : m.grp 2 = some g2) :
    expandTemplate m (sedRepl nd)
      = .ok ('s' :: nd :: (g1 ++ nd :: (g2 ++ [nd, 'g']))) := by
  rw [sedRepl]
  rw [expandTemplate, if_neg (fun hand => absurd hand.1 (by decide))]
  rw [expandTemplate, if_neg (fun hand => hnd hand.1)]
  rw [expandTemplate, if_pos ⟨rfl, by decide, by decide⟩]
  rw [show ('1'.toNat - '0'.toNat) = 1 from rfl, h1, expandGroup]
  rw [expandTemplate, if_neg (fun hand => hnd hand.1)]
  rw [expandTemplate, if_pos ⟨rfl, by decide, by decide⟩]
  rw [show ('2'.toNat - '0'.toNat) = 2 from rfl, h2, expandGroup]
  rw [expandTemplate, if_neg (fun hand => hnd hand.1)]
  rfl

theorem staticFun_sedRepl (nd : Char) (hnd : nd ≠ '\\') (m : RMatch)
    (g1 g2 : List Char) (h1 : m.grp 1 = some g1) (h2 : m.grp 2 = some g2) :
    staticFun (sedRepl nd) m
      = .ok ('s' :: nd :: (g1 ++ nd :: (g2 ++ [nd, 'g']))) := by
  rw [staticFun, sedRepl_unescape nd hnd]
  exact expandTemplate_sedRepl nd hnd m g1 g2 h1 h2

theorem matchAt_bol_pos (K : RE) (p : Nat) (rem : List Char) (hp : p ≠ 0) :
    matchAt (.seq .bol K) p rem = none := by
  rw [matchAt]
  obtain ⟨f, hf⟩ : ∃ f, reSize (.seq .bol K) * (rem.length + 1) = f + 1 := by
    have h1 := reSize_pos (.seq .bol K)
    have h2 : 0 < reSize (.seq .bol K) * (rem.length + 1) :=
      Nat.mul_pos (by omega) (by omega)
    exact ⟨reSize (.seq .bol K) * (rem.length + 1) - 1, by omega⟩
  rw [hf, mats_seq, mats_bol, if_neg hp]
  rfl

theorem searchFuel_bol_pos (K : RE) :
    ∀ (fuel p : Nat) (rem : List Char), p ≠ 0 →
      searchFuel (.seq .bol K) fuel p rem = none := by
  intro fuel
  induction fuel with
  | zero => intro p rem _; rfl
  | succ fuel ih =>
    intro p rem hp
    rw [searchFuel_succ, matchAt_bol_pos K p rem hp]
    match rem with
    | [] => rfl
    | c :: rest => exact ih (p + 1) rest (by omega)

theorem reSubFuel_step_ok (re : RE) (f : RMatch → Except ε (List Char))
    (fuel p : Nat) (rem pre : List Char) (caps : Caps) (out : List Char)
    (hm : matchAt re p rem = some (pre, caps))
    (hf : f ⟨pre, caps⟩ = .ok out)
    (hpre : pre ≠ []) (hrem : rem ≠ []) :
    reSubFuel re f (fuel + 1) p rem
      = (reSubFuel re f fuel (p + pre.length) (rem.drop pre.length)).map
          (fun t => out ++ t) := by
  match rem, hrem with
  | c :: rest, _ =>
    simp only [reSubFuel_succ, hm, hf, hpre, if_false, ite_false]

theorem reSubLine_whole_lines (od nd : Char) (A B nl : List Char) (fl : Char)
    (hA : ∀ c ∈ A, c ≠ od) (hB : '\n' ∉ B) (hfl : flagChars.contains fl = true)
    (hod : od ≠ '\n') (hnd : nd ≠ '\\') (hnl : nl = [] ∨ nl = ['\n']) :
    reSubLine (whole_lines od) (staticFun (sedRepl nd)) (bareLine od A B fl nl)
      = .ok (bareLine nd A B 'g' nl) := by
  have hsplit : bareLine od A B fl nl
      = ('s' :: od :: (A ++ od :: (B ++ [od, fl]))) ++ nl := by
    simp [bareLine]
  rw [reSubLine]
  rw [reSubFuel_step_ok (whole_lines od) (staticFun (sedRepl nd))
    (bareLine od A B fl nl).length 0 (bareLine od A B fl nl)
    ('s' :: od :: (A ++ od :: (B ++ [od, fl]))) (setCap (setCap [] 1 A) 2 B)
    ('s' :: nd :: (A ++ nd :: (B ++ [nd, 'g'])))
    (matchAt_whole_lines od A B nl fl hA hB hfl hod hnl)
    (staticFun_sedRepl nd hnd _ A B rfl rfl)
    (by simp) (by simp [bareLine])]
  rw [hsplit, List.drop_left]
  have hrest : reSubFuel (whole_lines od) (staticFun (sedRepl nd))
      (('s' :: od :: (A ++ od :: (B ++ [od, fl]))) ++ nl).length
      (0 + ('s' :: od :: (A ++ od :: (B ++ [od, fl]))).length) nl = .ok nl := by
    apply reSubFuel_of_searchFuel_none
    show searchFuel (.seq .bol _) _ _ _ = none
    apply searchFuel_bol_pos
    simp
  rw [hrest]
  simp [Except.map, bareLine]

theorem replaceFuel_no_backslash (t : List Char) (h : '\\' ∉ t) :
    ∀ fuel, replaceFuel ['\\', '\\'] ['\\'] fuel t = t := by
  induction t with
  | nil => intro fuel; match fuel with | 0 => rfl | fuel + 1 => rfl
  | cons c rest ih =>
    intro fuel
    match fuel with
    | 0 => rfl
    | fuel + 1 =>
      have hc : c ≠ '\\' := fun hc => h (hc ▸ List.mem_cons_self _ _)
      rw [replaceFuel]
      rw [if_neg]
      · rw [ih (fun hr => h (List.mem_cons_of_mem _ hr)) fuel]
      · rintro ⟨hp, -⟩
        rw [List.isPrefixOf] at hp
        simp at hp
        exact hc hp.1.symm

theorem expandTemplate_no_backslash (m : RMatch) :
    ∀ t : List Char, '\\' ∉ t → expandTemplate m t = .ok t := by
  intro t
  induction t with
  | nil => intro _; rfl
  | cons c rest ih =>
    intro h
    have hc : c ≠ '\\' := fun hc => h (hc ▸ List.mem_cons_self _ _)
    match rest with
    | [] => rfl
    | d :: rest' =>
      rw [expandTemplate]
      rw [if_neg (fun hand => hc hand.1)]
      rw [ih (fun hr => h (List.mem_cons_of_mem _ hr))]
      rfl

theorem staticFun_no_backslash (t : List Char) (h : '\\' ∉ t) (m : RMatch) :
    staticFun t m = .ok t := by
  rw [staticFun, replaceAll, replaceFuel_no_backslash t h]
  exact expandTemplate_no_backslash m t h

/-- C2 (amended): with pattern `(a)(b)` and static replacement `\2\1`, the
line `ab` becomes `ba` and `ab ab` becomes `ba ba` (every non-overlapping
match replaced, backreferences resolved against the match's capture groups
after `\\` is unescaped to `\`); a template containing no backslash at all
— in particular no backreference marker and no escape sequence — is copied
verbatim for every match. -/
theorem filter_file_backref_static :
    reSubLine (.seq (.group 1 (.chr 'a')) (.group 2 (.chr 'b')))
        (staticFun "\\2\\1".toList) "ab".toList = .ok "ba".toList
    ∧ reSubLine (.seq (.group 1 (.chr 'a')) (.group 2 (.chr 'b')))
        (staticFun "\\2\\1".toList) "ab ab".toList = .ok "ba ba".toList
    ∧ ∀ t : List Char, '\\' ∉ t → ∀ m : RMatch, staticFun t m = .ok t :=
  ⟨by decide, by decide, staticFun_no_backslash⟩

/-- Witness for C2's verbatim clause at a concrete input: a backslash-free
template is returned unchanged for a concrete match. -/
theorem filter_file_backref_static_witness :
    staticFun "xy".toList ⟨"a".toList, []⟩ = .ok "xy".toList :=
  filter_file_backref_static.2.2 "xy".toList (by decide) ⟨"a".toList, []⟩

/-- C3 (amended): the bare-form pattern matches any line consisting of
exactly `s<d>FIELD1<d>FIELD2<d>` followed by exactly ONE flag character
from `g`, `I`, `p` — not zero or more — and rewrites every such line to the
canonical form with the new delimiter and a trailing `g`; lines with zero
flags (`s/foo/bar/`) or two flags (`s/foo/bar/gI`) are not matched and are
left unchanged. -/
theorem whole_lines_exactly_one_flag (od nd : Char) (A B nl : List Char) (fl : Char)
    (hA : ∀ c ∈ A, c ≠ od) (hB : '\n' ∉ B) (hfl : flagChars.contains fl = true)
    (hod : od ≠ '\n') (hnd : nd ≠ '\\') (hnl : nl = [] ∨ nl = ['\n']) :
    reSubLine (whole_lines od) (staticFun (sedRepl nd)) (bareLine od A B fl nl)
      = .ok (bareLine nd A B 'g' nl)
    ∧ reSubLine (whole_lines '/') (staticFun (sedRepl '@')) "s/foo/bar/".toList
      = .ok "s/foo/bar/".toList
    ∧ reSubLine (whole_lines '/') (staticFun (sedRepl '@')) "s/foo/bar/gI".toList
      = .ok "s/foo/bar/gI".toList :=
  ⟨reSubLine_whole_lines od nd A B nl fl hA hB hfl hod hnd hnl,
    by decide, by decide⟩

/-- Witness for C3 at a concrete input: `s/foo/bar/g` becomes
`s@foo@bar@g`. -/
theorem whole_lines_exactly_one_flag_witness :
    reSubLine (whole_lines '/') (staticFun (sedRepl '@'))
        (bareLine '/' "foo".toList "bar".toList 'g' ['\n'])
      = .ok (bareLine '@' "foo".toList "bar".toList 'g' ['\n'])
    ∧ reSubLine (whole_lines '/') (staticFun (sedRepl '@')) "s/foo/bar/".toList
      = .ok "s/foo/bar/".toList
    ∧ reSubLine (whole_lines '/') (staticFun (sedRepl '@')) "s/foo/bar/gI".toList
      = .ok "s/foo/bar/gI".toList :=
  whole_lines_exactly_one_flag '/' '@' "foo".toList "bar".toList ['\n'] 'g'
    (by decide) (by decide) (by decide) (by decide) (by decide) (Or.inr rfl)

/-- C4 (amended): only FIELD1 excludes the old delimiter.  In the bare
form FIELD2 is `(.*)` and may contain the delimiter: any line
`s<d>A<d>B1<d>B2<d>f` (FIELD2 = `B1<d>B2`) is matched, with the greedy
decomposition taking FIELD2 up to the last delimiter, and is rewritten
with FIELD2 transported verbatim.  In the quoted forms FIELD2 excludes
only unescaped quotes, so the delimiter may appear there too. -/
theorem sed_field2_may_contain_delimiter (od nd : Char) (A B1 B2 nl : List Char)
    (fl : Char) (hA : ∀ c ∈ A, c ≠ od) (hB1 : '\n' ∉ B1) (hB2 : '\n' ∉ B2)
    (hfl : flagChars.contains fl = true) (hod : od ≠ '\n') (hnd : nd ≠ '\\')
    (hnl : nl = [] ∨ nl = ['\n']) :
    reSubLine (whole_lines od) (staticFun (sedRepl nd))
        (bareLine od A (B1 ++ od :: B2) fl nl)
      = .ok (bareLine nd A (B1 ++ od :: B2) 'g' nl)
    ∧ reSubLine (single_quoted '/') (staticFun ('\'' :: sedRepl '@' ++ ['\'']))
        "'s/a/b/c/g'".toList = .ok "'s@a@b/c@g'".toList
    ∧ reSubLine (double_quoted '/') (staticFun ('"' :: sedRepl '@' ++ ['"']))
        "\"s/a/b/c/g\"".toList = .ok "\"s@a@b/c@g\"".toList :=
  ⟨reSubLine_whole_lines od nd A (B1 ++ od :: B2) nl fl hA
      (by intro hmem
          rcases List.mem_append.mp hmem with h | h
          · exact hB1 h
          · rcases List.mem_cons.mp h with h | h
            · exact hod h.symm
            · exact hB2 h)
      hfl hod hnd hnl,
    by decide, by decide⟩

/-- Witness for C4 at a concrete input: `s/a/b/c/g` is matched with
FIELD2 = `b/c` containing the delimiter and rewritten to `s@a@b/c@g`. -/
theorem sed_field2_may_contain_delimiter_witness :
    reSubLine (whole_lines '/') (staticFun (sedRepl '@'))
        (bareLine '/' "a".toList ("b".toList ++ '/' :: "c".toList) 'g' ['\n'])
      = .ok (bareLine '@' "a".toList ("b".toList ++ '/' :: "c".toList) 'g' ['\n'])
    ∧ reSubLine (single_quoted '/') (staticFun ('\'' :: sedRepl '@' ++ ['\'']))
        "'s/a/b/c/g'".toList = .ok "'s@a@b/c@g'".toList
    ∧ reSubLine (double_quoted '/') (staticFun ('"' :: sedRepl '@' ++ ['"']))
        "\"s/a/b/c/g\"".toList = .ok "\"s@a@b/c@g\"".toList :=
  sed_field2_may_contain_delimiter '/' '@' "a".toList "b".toList "c".toList ['\n']
    'g' (by decide) (by decide) (by decide) (by decide) (by decide) (by decide)
    (Or.inr rfl)

theorem matchAt_chr_dead (q : Char) (K : RE) (p : Nat) (rem : List Char)
    (h : rem = [] ∨ ∃ c t, rem = c :: t ∧ c ≠ q) :
    matchAt (.seq (.chr q) K) p rem = none := by
  rw [matchAt, mats_seq_chr_dead q K _ _ _ _ h]

theorem searchFuel_chr_absent (q : Char) (K : RE) :
    ∀ (fuel p : Nat) (rem : List Char), (∀ c ∈ rem, c ≠ q) →
      searchFuel (.seq (.chr q) K) fuel p rem = none := by
  intro fuel
  induction fuel with
  | zero => intro p rem _; rfl
  | succ fuel ih =>
    intro p rem h
    rw [searchFuel_succ]
    rw [matchAt_chr_dead q K p rem ?_]
    · match rem with
      | [] => rfl
      | c :: rest => exact ih (p + 1) rest (fun a ha => h a (List.mem_cons_of_mem _ ha))
    · match rem with
      | [] => exact Or.inl rfl
      | c :: rest => exact Or.inr ⟨c, rest, rfl, h c (List.mem_cons_self _ _)⟩

theorem reSubLine_quote_absent (q : Char) (K : RE)
    (f : RMatch → Except ε (List Char)) (line : List Char)
    (h : ∀ c ∈ line, c ≠ q) :
    reSubLine (.seq (.chr q) K) f line = .ok line :=
  reSubLine_of_searchLine_none _ f line (searchFuel_chr_absent q K _ 0 line h)

theorem filterContent_id_of_lines (re : RE) (f : RMatch → Except ε (List Char))
    (c : List Char) (h : ∀ l ∈ splitLines c, reSubLine re f l = .ok l) :
    filterContent re f c = .ok c := by
  rw [filterContent, filterLines_id re f _ h, splitLines_flatten]

theorem filter_file_single_ok (re : RE) (f : RMatch → Except ε (List Char))
    (name : String) (fsx : FS) (c : List Char) (h1 : fsx name = some c)
    (h2 : filterContent re f c = .ok c) :
    filter_file re f [name] fsx
      = .inl (upd (upd fsx (name ++ "~") (some c)) name (some c)) := by
  rw [filter_file, h1]
  simp only [h2]
  rw [filter_file]

/-- C8 (amended): a run with `old_delim = new_delim = d` is a fixed point
on any file whose every line is quote-free and either already a canonical
bare sed command `s<d>FIELD1<d>FIELD2<d>g` (FIELD1 free of `d`) or
unmatched by the bare pattern.  (The original claim fails because a first
run with a different old delimiter leaves `d`-delimited commands with
unnormalized flags untouched, as the counterexample shows.) -/
theorem change_sed_second_pass_fixed_point (d : Char) (name : String) (fs : FS)
    (c : List Char)
    (hd1 : d ≠ '"') (hd2 : d ≠ '\'') (hd3 : d ≠ '\n') (hd4 : d ≠ '\\')
    (hc : fs name = some c)
    (hlines : ∀ l ∈ splitLines c,
      ('\'' ∉ l ∧ '"' ∉ l) ∧
      ((∃ A B nl, l = bareLine d A B 'g' nl ∧ (∀ ch ∈ A, ch ≠ d) ∧ '\n' ∉ B ∧
          (nl = [] ∨ nl = ['\n'])) ∨
        searchLine (whole_lines d) l = none)) :
    ∃ fs', change_sed_delimiter (String.mk [d]) (String.mk [d]) [name] fs
        = .ok fs' ∧ fs' name = some c := by
  have hq : (String.mk [d]).length = 1 := rfl
  have hqd : (String.mk [d]).toList.headD ' ' = d := rfl
  have hne : ∀ e : Char, d ≠ e → String.mk [d] ≠ String.mk [e] := by
    intro e hde heq
    have := congrArg String.data heq
    simp at this
    exact hde this
  rw [change_sed_delimiter, if_pos ⟨hq, hq, hne '"' hd1, hne '\'' hd2,
    hne '"' hd1, hne '\'' hd2⟩]
  rw [hqd]
  have hpass1 : filterContent (whole_lines d) (staticFun (sedRepl d)) c = .ok c := by
    apply filterContent_id_of_lines
    intro l hl
    rcases (hlines l hl).2 with ⟨A, B, nl, rfl, hA, hB, hnl⟩ | hnone
    · exact reSubLine_whole_lines d d A B nl 'g' hA hB (by decide) hd3 hd4 hnl
    · exact reSubLine_of_searchLine_none _ _ l hnone
  have hpass2 : filterContent (single_quoted d)
      (staticFun ('\'' :: sedRepl d ++ ['\''])) c = .ok c := by
    apply filterContent_id_of_lines
    intro l hl
    exact reSubLine_quote_absent '\'' _ _ l
      (fun a ha hq => ((hlines l hl).1.1 (hq ▸ ha)))
  have hpass3 : filterContent (double_quoted d)
      (staticFun ('"' :: sedRepl d ++ ['"'])) c = .ok c := by
    apply filterContent_id_of_lines
    intro l hl
    exact reSubLine_quote_absent '"' _ _ l
      (fun a ha hq => ((hlines l hl).1.2 (hq ▸ ha)))
  rw [sedLoop]
  rw [sedOneFile]
  rw [filter_file_single_ok _ _ _ _ _ hc hpass1]
  simp only []
  rw [filter_file_single_ok _ _ _ _ _ (by rw [upd_same]) hpass2]
  simp only []
  rw [filter_file_single_ok _ _ _ _ _ (by rw [upd_same]) hpass3]
  simp only []
  rw [sedLoop]
  exact ⟨_, rfl, by rw [upd_same]⟩

/-- Witness for C8 at a concrete input: a file holding a canonical bare
command and a non-matching line is unchanged by a second
`change_sed_delimiter('@','@')` run. -/
theorem change_sed_second_pass_fixed_point_witness :
    ∃ fs', change_sed_delimiter (String.mk ['@']) (String.mk ['@']) ["f"]
        (singleFS "f" "s@a@b@g\nxy\n") = .ok fs' ∧
      fs' "f" = some "s@a@b@g\nxy\n".toList :=
  change_sed_second_pass_fixed_point '@' "f" (singleFS "f" "s@a@b@g\nxy\n")
    "s@a@b@g\nxy\n".toList (by decide) (by decide) (by decide) (by decide)
    (by decide)
    (by
      intro l hl
      have hsplit : splitLines "s@a@b@g\nxy\n".toList
          = ["s@a@b@g\n".toList, "xy\n".toList] := by decide
      rw [hsplit] at hl
      rcases List.mem_cons.mp hl with rfl | hl
      · exact ⟨⟨by decide, by decide⟩,
          Or.inl ⟨['a'], ['b'], ['\n'], by decide, by decide, by decide,
            Or.inr rfl⟩⟩
      · rcases List.mem_cons.mp hl with rfl | hl
        · exact ⟨⟨by decide, by decide⟩, Or.inr (by decide)⟩
        · exact absurd hl (by simp))

/-- C5: calling `change_sed_delimiter` with an old or new delimiter that is
more than one character, or equal to a single or double quote, fails on the
assertions (`InvalidArgument`) before any file is read or written: the
returned file system is exactly the input file system, so no backup is
created and no file is mutated. -/
theorem change_sed_delimiter_precondition (old_delim new_delim : String)
    (files : List String) (fs : FS)
    (h : 1 < old_delim.length ∨ 1 < new_delim.length ∨
      old_delim = "\"" ∨ old_delim = "'" ∨ new_delim = "\"" ∨ new_delim = "'") :
    change_sed_delimiter old_delim new_delim files fs = .assertFail fs := by
  unfold change_sed_delimiter
  have hc : ¬(old_delim.length = 1 ∧ new_delim.length = 1 ∧
      old_delim ≠ "\"" ∧ old_delim ≠ "'" ∧ new_delim ≠ "\"" ∧ new_delim ≠ "'") := by
    rintro ⟨h1, h2, h3, h4, h5, h6⟩
    rcases h with h | h | h | h | h | h
    · omega
    · omega
    · exact h3 h
    · exact h4 h
    · exact h5 h
    · exact h6 h
  rw [if_neg hc]

/-- Witness for C5 at a concrete input: a two-character old delimiter is
rejected with the file system untouched. -/
theorem change_sed_delimiter_precondition_witness :
    change_sed_delimiter "//" "@" ["f"] (singleFS "f" "x")
      = .assertFail (singleFS "f" "x") :=
  change_sed_delimiter_precondition "//" "@" ["f"] (singleFS "f" "x") (by decide)

/-- C7: the single-quoted form `'s/fo\'o/bar/'` rewritten with old
delimiter `/` and new delimiter `@` becomes `'s@fo\'o@bar@g'`: the escaped
single quote inside FIELD1 is preserved, the result is re-wrapped in single
quotes, and the flags are normalized to a trailing `g`. -/
theorem change_sed_delimiter_escaped_quote_example :
    sedStateAt
      (change_sed_delimiter "/" "@" ["f"] (singleFS "f" "'s/fo\\'o/bar/'\n")) "f"
      = some "'s@fo\\'o@bar@g'\n".toList := by decide

/-- C10: backreference markers in a static replacement are single-digit
only: `\0` expands to the entire match; `\10` is group 1 followed by a
literal `0`, never group 10; and a digit exceeding the number of capture
groups makes the substitution fail, which in `filter_file` restores the
file and removes the backup. -/
theorem static_backref_single_digit :
    reSubLine (.seq (.group 1 (.chr 'a')) (.group 2 (.chr 'b')))
        (staticFun "\\0\\0".toList) "ab".toList = .ok "abab".toList
    ∧ reSubLine (.seq (.group 1 (.chr 'a')) (.group 2 (.chr 'b')))
        (staticFun "\\10".toList) "ab".toList = .ok "a0".toList
    ∧ reSubLine (.group 1 (.chr 'a')) (staticFun "\\2".toList) "a".toList
        = .error ()
    ∧ ffStateAt (filter_file (.group 1 (.chr 'a')) (staticFun "\\2".toList)
        ["f"] (singleFS "f" "a")) "f" = some ['a']
    ∧ ffStateAt (filter_file (.group 1 (.chr 'a')) (staticFun "\\2".toList)
        ["f"] (singleFS "f" "a")) "f~" = none
    ∧ ffFailed (filter_file (.group 1 (.chr 'a')) (staticFun "\\2".toList)
        ["f"] (singleFS "f" "a")) = some "f" := by
  refine ⟨by decide, by decide, by decide, by decide, by decide, by decide⟩

/-- Counterexample to C1 as stated: with the same filename listed twice and
a replacement callable that succeeds on the first pass and raises on the
second, the failure during the second processing restores the file only to
the content it had when that processing began (`b`), not to its pre-call
content (`a`). -/
theorem filter_file_duplicate_not_pre_call :
    ffFailed (filter_file (.cls true ['a', 'b']) replDup ["f", "f"]
        (singleFS "f" "a")) = some "f"
    ∧ ffStateAt (filter_file (.cls true ['a', 'b']) replDup ["f", "f"]
        (singleFS "f" "a")) "f" = some ['b']
    ∧ singleFS "f" "a" "f" = some ['a']
    ∧ (['b'] : List Char) ≠ ['a'] := by
  refine ⟨by decide, by decide, by decide, by decide⟩

/-- Counterexample to C2's verbatim clause as stated: the template `\\`
(two characters) contains no backreference marker `\<digit>`, yet it is
not copied verbatim — the unescaping step turns it into a single
backslash. -/
theorem static_template_not_verbatim :
    hasBackrefMarker "\\\\".toList = false
    ∧ reSubLine (.chr 'a') (staticFun "\\\\".toList) "a".toList
        = .ok "\\".toList
    ∧ "\\".toList ≠ "\\\\".toList := by
  refine ⟨by decide, by decide, by decide⟩

/-- Counterexample to C3 as stated: the bare-form pattern requires exactly
one flag character, not zero or more: `s/foo/bar/` (no flags) and
`s/foo/bar/gI` (two flags) are left unmatched and unchanged, not rewritten
to canonical form. -/
theorem whole_lines_zero_flags_unmatched :
    reSubLine (whole_lines '/') (staticFun (sedRepl '@')) "s/foo/bar/".toList
      = .ok "s/foo/bar/".toList
    ∧ reSubLine (whole_lines '/') (staticFun (sedRepl '@')) "s/foo/bar/gI".toList
      = .ok "s/foo/bar/gI".toList
    ∧ "s/foo/bar/".toList ≠ "s@foo@bar@g".toList := by
  refine ⟨by decide, by decide, by decide⟩

/-- Counterexample to C4 as stated: a line whose FIELD2 contains the old
delimiter is matched after all.  In the bare form, `s/a/b/c/g` is matched
with FIELD2 = `b/c` and rewritten; in the single-quoted form,
`'s/a/b/c/g'` likewise. -/
theorem field2_contains_delimiter :
    reSubLine (whole_lines '/') (staticFun (sedRepl '@')) "s/a/b/c/g".toList
      = .ok "s@a@b/c@g".toList
    ∧ "s@a@b/c@g".toList ≠ "s/a/b/c/g".toList
    ∧ reSubLine (single_quoted '/') (staticFun ('\'' :: sedRepl '@' ++ ['\'']))
        "'s/a/b/c/g'".toList = .ok "'s@a@b/c@g'".toList
    ∧ "'s@a@b/c@g'".toList ≠ "'s/a/b/c/g'".toList := by
  refine ⟨by decide, by decide, by decide, by decide⟩

/-- Counterexample to C8 as stated: the file `s@a@b@I` is a fixed point of
`change_sed_delimiter('/', '@', f)` — so it is "already rewritten to
delimiter `@`" in the sense of being that run's output — yet a second run
with old = new = `@` changes it (the flag `I` is normalized to `g`). -/
theorem change_sed_second_pass_not_fixed :
    sedStateAt (change_sed_delimiter "/" "@" ["f"] (singleFS "f" "s@a@b@I\n")) "f"
      = some "s@a@b@I\n".toList
    ∧ sedStateAt (sedTwice "/" "@" "@" "@" ["f"] (singleFS "f" "s@a@b@I\n")) "f"
      = some "s@a@b@g\n".toList
    ∧ "s@a@b@g\n".toList ≠ "s@a@b@I\n".toList := by
  refine ⟨by decide, by decide, by decide⟩

/-- Counterexample to C9 as stated: the source's loop is file-major, not
form-major.  With `f1` containing a single-quoted sed command and `f2`
absent, the source rewrites `f1` completely (all three passes) before
touching `f2`, so `f1` is fully rewritten when the failure on `f2` is
raised; under the spec's form-major ordering the failure in the first
(bare) pass would reach `f2` before any quoted pass ran, leaving `f1`
unrewritten.  The two orderings are observably different. -/
theorem change_sed_not_form_major :
    sedStateAt (change_sed_delimiter "/" "@" ["f1", "f2"]
        (singleFS "f1" "'s/a/b/'\n")) "f1" = some "'s@a@b@g'\n".toList
    ∧ sedFailedFile (change_sed_delimiter "/" "@" ["f1", "f2"]
        (singleFS "f1" "'s/a/b/'\n")) = some "f2"
    ∧ sedStateAt (change_sed_form_major "/" "@" ["f1", "f2"]
        (singleFS "f1" "'s/a/b/'\n")) "f1" = some "'s/a/b/'\n".toList
    ∧ sedFailedFile (change_sed_form_major "/" "@" ["f1", "f2"]
        (singleFS "f1" "'s/a/b/'\n")) = some "f2"
    ∧ "'s@a@b@g'\n".toList ≠ "'s/a/b/'\n".toList := by
  refine ⟨by decide, by decide, by decide, by decide, by decide⟩

end SpackFs
